import Mathlib

/-!
Verification development for the MUSE mining-model creator
(`MUSE Analytics/mining_model_creator.py`).

Python strings are embedded as `List Char`; `len` is `List.length`, slicing
`[:100]` is `List.take 100`.  The regular expressions of the source are
embedded by small recursive matchers that reproduce the exact scanning and
backtracking behaviour of CPython's `re` on the concrete patterns used
(`.[Ll]?[0-9]+$`, `.*[Ll]?([0-9]+)$`, the shortname pattern).  All
definitions are executable.
-/

/-- Character class `[0-9]` of the source's regular expressions. -/
def isDigitC (c : Char) : Bool := '0' ≤ c && c ≤ '9'

/-- Integer value of a digit character, as Python's `int` on a one-char string. -/
def digitVal (c : Char) : Nat := c.toNat - '0'.toNat

/-- Character class `[Ll]` of the source's regular expressions. -/
def isL (c : Char) : Bool := c == 'L' || c == 'l'

/-- CPython's `\s` on `str` patterns: the characters matched by `re.match(r'\s', c)`
(ASCII whitespace, the C1 control quartet, NEL, NBSP and the Unicode space
separators). -/
def isPySpace (c : Char) : Bool :=
  (0x9 ≤ c.toNat && c.toNat ≤ 0xd) || (0x1c ≤ c.toNat && c.toNat ≤ 0x20) ||
  c.toNat == 0x85 || c.toNat == 0xa0 || c.toNat == 0x1680 ||
  (0x2000 ≤ c.toNat && c.toNat ≤ 0x200a) ||
  c.toNat == 0x2028 || c.toNat == 0x2029 || c.toNat == 0x202f ||
  c.toNat == 0x205f || c.toNat == 0x3000

/-- Character class `[-_\s]` of the shortname pattern. -/
def isSepC (c : Char) : Bool :=
  c == '-' || c == '_' || isPySpace c

/-- The string minus one final newline, if any: the region in which CPython's
end anchor `$` (without `re.MULTILINE`) places the match end — `$` matches at
the true end of the string and also just before a single trailing `'\n'`. -/
def coreOf (s : List Char) : List Char :=
  if s.getLast? == some '\n' then s.dropLast else s

/-- Does `[0-9]+$` match all of `t` (one or more digits, then the end anchor,
which also accepts one trailing newline after the digits)? -/
def digitsDollar (t : List Char) : Bool :=
  !(coreOf t).isEmpty && (coreOf t).all isDigitC

/-- Does the pattern `.[Ll]?[0-9]+$` of `MiningColumn.matches` match starting
at the head of `r`?  The wildcard `.` consumes one character that is not a
newline (CPython `.` without `re.DOTALL`), then an optional `L`/`l`, then one
or more digits running to the end anchor. -/
def suffixMatch : List Char → Bool
  | [] => false
  | c :: rest =>
    (c != '\n') &&
    (match rest with
     | d :: rest2 => (isL d && digitsDollar rest2) || digitsDollar (d :: rest2)
     | [] => false)

/-- `re.sub('.[Ll]?[0-9]+$', '', s)` from `MiningColumn.matches` (strict=False
branch): remove the leftmost (hence only) match of the end-anchored pattern.
When the anchor matched just before a trailing newline, that newline is not
part of the match and survives the substitution. -/
def canonicalL : List Char → List Char
  | [] => []
  | c :: rest =>
    if suffixMatch (c :: rest) then
      (if (c :: rest).getLast? == some '\n' then ['\n'] else [])
    else c :: canonicalL rest

/-- `MiningColumn.matches(column, strict)` where `selfStr` is `str(self)` and
`column` is the reference string (a `MiningColumn` argument is first reduced
to its `str`). -/
def matchesL (selfStr column : List Char) (strict : Bool) : Bool :=
  if column = selfStr then true
  else if !strict then canonicalL column == canonicalL selfStr
  else false

/-- Is there a match of `.[Ll]?[0-9]+$` anywhere in `s` (ending at the end of
`s`)?  `canonicalL s = s` exactly when there is none. -/
def hasMatch : List Char → Bool
  | [] => false
  | c :: r => suffixMatch (c :: r) || hasMatch r

/-- A suffix of the shape the specification describes for canonicalisation:
one separator character `sep`, an optional literal `L`/`l`, then digits.
The separator must not be a newline (CPython's `.` never matches `'\n'`); it
is otherwise unconstrained when the `L` marker is present, and without the
marker it must be neither a digit nor `L`/`l` (otherwise the source's `.`
wildcard strips differently, see the C1 counterexample). -/
def goodSuffixB (sep : Char) (tl : List Char) : Bool :=
  (sep != '\n') &&
  ((match tl with
    | c :: ds => isL c && !ds.isEmpty && ds.all isDigitC
    | [] => false)
   || (!tl.isEmpty && tl.all isDigitC && !(isDigitC sep) && !(isL sep)))

/-- `([0-9]+)$` on the remainder `t`: the captured digit run (the trailing
newline accepted by the anchor is not part of the group). -/
def digitsGroup (t : List Char) : Option (List Char) :=
  if digitsDollar t then some (coreOf t) else none

/-- The `[Ll]?([0-9]+)$` tail of the pattern of `MiningColumn.level`, applied
to the remainder left after `.*`: the optional `L` is tried greedily, then the
captured digit group must reach the end anchor.  Returns the captured group. -/
def levelGroupAt : List Char → Option (List Char)
  | [] => none
  | d :: t => if isL d then digitsGroup t else digitsGroup (d :: t)

/-- The group captured by `re.match('.*[Ll]?([0-9]+)$', s)`.  The greedy `.*`
prefers the split leaving the shortest remainder, so the suffixes of `s` are
tried shortest-first — but `.*` cannot consume a newline (CPython `.` without
`re.DOTALL`), so at a newline only the split stopping right there remains. -/
def findGroup : List Char → Option (List Char)
  | [] => none
  | c :: r =>
    if c == '\n' then levelGroupAt (c :: r)
    else
      match findGroup r with
      | some g => some g
      | none => levelGroupAt (c :: r)

/-- `MiningColumn.level`: `0` when the regex does not match, otherwise
`max(map(int, group))` — the maximum over the digit characters of the
captured group. -/
def level (s : List Char) : Nat :=
  match findGroup s with
  | none => 0
  | some g => (g.map digitVal).foldl Nat.max 0

/-- No newline occurs in the list — the region CPython's `.`/`.*` may
traverse is exactly a newline-free stretch. -/
def noNl (l : List Char) : Bool := l.all (fun c => c != '\n')

/-- Does the shortname pattern `[-_\s]*[Ll]?[0-9]+$` match starting at the
head of `r` and reaching the end anchor?  The separator class, `L` and the
digits are pairwise disjoint character sets, so the greedy quantifiers are
deterministic: the maximal separator run, then an optional `L`, then digits
up to `$` (which also accepts one trailing newline). -/
def tailMatch (r : List Char) : Bool :=
  match r.dropWhile isSepC with
  | c :: t => if isL c then digitsDollar t else digitsDollar (c :: t)
  | [] => false

/-- `MiningColumn.shortname`: `re.sub('[-_\s]*[Ll]?[0-9]+$', '', name)` —
remove the leftmost match of the end-anchored shortname pattern; a trailing
newline accepted by the anchor is not part of the match and survives. -/
def shortnameL : List Char → List Char
  | [] => []
  | c :: rest =>
    if tailMatch (c :: rest) then
      (if (c :: rest).getLast? == some '\n' then ['\n'] else [])
    else c :: shortnameL rest

/-- `Document.part_name`: underscore-join of the input columns' shortnames,
double-underscore-joined with the output column's shortname; `'null_null'`
when there is neither.  Columns enter through their `str` value. -/
def part_name (inputs : List (List Char)) (output : Option (List Char)) : List Char :=
  let l1 : List (List Char) :=
    if inputs.isEmpty then [] else [List.intercalate ['_'] (inputs.map shortnameL)]
  let l2 : List (List Char) :=
    match output with
    | some o => l1 ++ [shortnameL o]
    | none => l1
  if l2.isEmpty then "null_null".toList else List.intercalate ['_', '_'] l2

/-- `Document.name`.  `sha` abstracts `hashlib.sha256(...).hexdigest()`
optionally post-composed with `humanhash.humanize`; every property claimed of
this function holds for an arbitrary such digest function, so it is taken as a
parameter.  `explicitName` is the constructor's `name` argument (`self._name`);
Python truthiness makes an empty string behave like an absent one.  The result
is `none` when the source would raise (fallback branch with no output column,
whose `shortname` is accessed there). -/
def docName (root : List Char) (inputs : List (List Char)) (output : Option (List Char))
    (explicitName : Option (List Char)) (sha : List Char → List Char) : Option (List Char) :=
  let pn := part_name inputs output
  let name :=
    match explicitName with
    | some e => if e.isEmpty then root ++ ['_', '_'] ++ pn else e
    | none => root ++ ['_', '_'] ++ pn
  if 100 < name.length then
    match output with
    | some o => some ((root ++ ['_', '_'] ++ sha pn ++ ['_', '_'] ++ shortnameL o).take 100)
    | none => none
  else some name

/-- Python `s.rstrip(cs)`: remove from the right every character contained in
the character set `cs` (not the literal string `cs`). -/
def pyRstrip (s cs : List Char) : List Char :=
  (s.reverse.dropWhile (fun c => cs.contains c)).reverse

/-- Python `s.lstrip(cs)` (the left half of `s.strip(cs)`). -/
def pyLstrip (s cs : List Char) : List Char :=
  s.dropWhile (fun c => cs.contains c)

/-- Python `s.strip(cs)`: character-set strip from both ends. -/
def pyStrip (s cs : List Char) : List Char :=
  pyLstrip (pyRstrip s cs) cs

/-- `Document.load`'s root derivation on the file's base name:
`basename.rstrip('_vorlage.dmm').strip('ms_')`. -/
def loadRoot (base : List Char) : List Char :=
  pyStrip (pyRstrip base ("_vorlage.dmm".toList)) ("ms_".toList)

/-- Removal of an exact literal trailing token (the behaviour the
specification prescribes for root derivation, for comparison with
`loadRoot`). -/
def dropSuffixL (s suf : List Char) : List Char :=
  if suf.length ≤ s.length && decide (s.drop (s.length - suf.length) = suf) then
    s.take (s.length - suf.length)
  else s

/-- Removal of an exact literal leading token (specification behaviour). -/
def dropPrefixL (pre s : List Char) : List Char :=
  if decide (s.take pre.length = pre) then s.drop pre.length else s

/-- Root derivation as the specification words it: strip the exact literal
trailing token `_vorlage.dmm`, then the exact literal leading token `ms_`. -/
def rootSpec (base : List Char) : List Char :=
  dropPrefixL ("ms_".toList) (dropSuffixL base ("_vorlage.dmm".toList))

/-- The column-name view of a loaded `Document` used by `remove_unused`:
the `str` values of the top-level mining columns, the `SourceColumnID` texts
referenced by the per-model columns, and the current selection. -/
structure DocState where
  miningCols : List (List Char)
  modelSourceIds : List (List Char)
  inputs : List (List Char)
  output : List Char

/-- `Document.used_columns`: the `SourceColumnID` texts of all per-model
columns together with the `str` of every selected input column and of the
output column.  The source builds a Python set; only membership is consumed,
so a list with membership stands in for it. -/
def used_columns (d : DocState) : List (List Char) :=
  d.modelSourceIds ++ d.inputs ++ [d.output]

/-- `Document.remove_unused(ignore)`: the top-level columns retained are
exactly those matching (non-strict) some name in `used_columns ∪ ignore`;
the for-else loop removes a column when no name in the set matches it. -/
def remove_unused (d : DocState) (ignore : List (List Char)) : List (List Char) :=
  d.miningCols.filter (fun c => (used_columns d ++ ignore).any (fun n => matchesL c n false))

/-- `Document.get_columns_by_name`: all mining columns matching the given
name with the default `strict=False`. -/
def get_columns_by_name (cols : List (List Char)) (colName : List Char) : List (List Char) :=
  cols.filter (fun c => matchesL c colName false)

/-- Accumulator loop of Python's `max(list, key=...)`: keep the current
element unless the next key is strictly greater, so the first element
attaining the maximal key wins. -/
def pyMaxGo (key : List Char → Nat) (a : List Char) : List (List Char) → List Char
  | [] => a
  | b :: r => if key a < key b then pyMaxGo key b r else pyMaxGo key a r

/-- Python's `max(list, key=...)`; `none` models the `ValueError` on an empty
list. -/
def pyMax? (key : List Char → Nat) : List (List Char) → Option (List Char)
  | [] => none
  | a :: r => some (pyMaxGo key a r)

/-- Column resolution of `update_multiple_models` / `update_single_model`:
`max(doc.get_columns_by_name(ref), key=lambda x: x.level)`. -/
def select_column (cols : List (List Char)) (ref : List Char) : Option (List Char) :=
  pyMax? level (get_columns_by_name cols ref)

/-- A node of the parsed template tree (`xml.etree.ElementTree` element):
tag, attribute list, text, children.  The engine-namespace URI prefix that
ElementTree puts on template tags is elided uniformly; no claim distinguishes
namespaced from plain tags. -/
inductive ENode : Type where
  | mk (tag : String) (attrs : List (String × String)) (text : Option String)
       (children : List ENode)

/-- Tag of a node. -/
def ENode.tag : ENode → String
  | ENode.mk t _ _ _ => t

/-- Attribute list of a node. -/
def ENode.attrs : ENode → List (String × String)
  | ENode.mk _ a _ _ => a

/-- Text of a node (`None` allowed, as in ElementTree). -/
def ENode.text : ENode → Option String
  | ENode.mk _ _ tx _ => tx

/-- Children of a node. -/
def ENode.children : ENode → List ENode
  | ENode.mk _ _ _ cs => cs

/-- First child with the given tag among `cs` (`element.find('./tag')`). -/
def findTagL (cs : List ENode) (t : String) : Option ENode :=
  cs.find? (fun n => n.tag == t)

/-- `element.find('./tag')` on a node. -/
def findTag (c : ENode) (t : String) : Option ENode :=
  findTagL c.children t

/-- Attribute lookup in an attribute list (`element.attrib[k]`, `none` for the
`KeyError` case). -/
def lookupA (a : List (String × String)) (k : String) : Option String :=
  (a.find? (fun p => p.fst == k)).map Prod.snd

/-- Attribute lookup on a node. -/
def lookupAttr (c : ENode) (k : String) : Option String :=
  lookupA c.attrs k

/-- The fully qualified attribute key `xsi:type` that `MiningColumn.nested`
reads (`'\x7b\x7d'.format` of the xsi namespace URI and `type`). -/
def xsiTypeKey : String := "\x7bhttp://www.w3.org/2001/XMLSchema-instance\x7dtype"

/-- `element.find('./Columns/Column')` used by `MiningColumn.child`: the first
`Column` child of a `Columns` child, in document order across all `Columns`
children. -/
def findPath2 : List ENode → Option ENode
  | [] => none
  | n :: rest =>
    if n.tag == "Columns" then
      match findTagL n.children "Column" with
      | some m => some m
      | none => findPath2 rest
    else findPath2 rest

/-- `MiningColumn.child` as a node: `none` when the path query finds nothing
(the source then wraps `None` and crashes on first use). -/
def childCol (c : ENode) : Option ENode :=
  findPath2 c.children

/-- `MiningColumn.nested` as a total predicate: the `xsi:type` attribute is
present and equals `TableMiningStructureColumn`.  (The source raises
`KeyError` when the attribute is missing; theorems about columns go through
`createMiningNode`/`strColumn`, which return `none` there.) -/
def isNestedT (c : ENode) : Bool :=
  lookupAttr c xsiTypeKey == some "TableMiningStructureColumn"

/-- The `Usage` child produced by `if usage: ET.SubElement(col, 'Usage').text
= usage`: one `Usage` node when `usage` is truthy, nothing otherwise. -/
def usageList : Option String → List ENode
  | some u => if u == "" then [] else [ENode.mk "Usage" [] (some u) []]
  | none => []

mutual

/-- `MiningColumn.create_mining_node(parent, usage)`, as the subtree appended
to `parent`: a `Column` node with `ID` and `Name` set to the text of the
column's own `Name` child (`self.name`), `SourceColumnID` set to the text of
its own `ID` child (`self.id`), a `Usage` child exactly when `usage` is
truthy, and, for a nested column, a `Columns` container holding the child
column materialised with usage `Key`.  `none` models the exceptions of the
source: missing `Name`/`ID` child, missing `xsi:type` attribute, or a nested
column without a `./Columns/Column` descendant. -/
def createMiningNode : ENode → Option String → Option ENode
  | ENode.mk _ a _ cs, usage =>
    match findTagL cs "Name", findTagL cs "ID", lookupA a xsiTypeKey with
    | some nameN, some idN, some ty =>
      let ubase : List ENode :=
        ENode.mk "ID" [] nameN.text [] :: ENode.mk "Name" [] nameN.text [] ::
        ENode.mk "SourceColumnID" [] idN.text [] :: usageList usage
      if ty == "TableMiningStructureColumn" then
        match cmnColumns cs with
        | some chNd =>
          some (ENode.mk "Column" [] none (ubase ++ [ENode.mk "Columns" [] none [chNd]]))
        | none => none
      else some (ENode.mk "Column" [] none ubase)
    | _, _, _ => none

/-- Walk the children looking for the `./Columns/Column` path and materialise
the column found there with usage `Key` (the nested branch of
`create_mining_node`); `none` when no such column exists (the source then
crashes on the wrapped `None`). -/
def cmnColumns : List ENode → Option ENode
  | [] => none
  | ENode.mk tg2 _ _ cs2 :: rest =>
    if tg2 == "Columns" then
      match cmnColumn cs2 with
      | some r => r
      | none => cmnColumns rest
    else cmnColumns rest

/-- Find the first `Column` node in a `Columns` child's children and recurse
into `createMiningNode` on it; the outer `none` means "no `Column` here"
(the path query then continues), `some r` means the column was found and `r`
is the materialisation result. -/
def cmnColumn : List ENode → Option (Option ENode)
  | [] => none
  | n :: rest =>
    if n.tag == "Column" then some (createMiningNode n (some "Key"))
    else cmnColumn rest

end

mutual

/-- `str(column)` (`MiningColumn.__str__`): the text of the column's `Name`
child, or for a nested column the `str` of its child column.  `none` models
every exception path (missing attribute, missing `Name` child, `None` text —
`str()` raises `TypeError` when `__str__` returns `None`). -/
def strColumn : ENode → Option String
  | ENode.mk _ a _ cs =>
    match lookupA a xsiTypeKey with
    | none => none
    | some ty =>
      if ty == "TableMiningStructureColumn" then strColumns cs
      else (findTagL cs "Name").bind ENode.text

/-- The `./Columns/Column` walk of `MiningColumn.child` followed by `str` on
the column found. -/
def strColumns : List ENode → Option String
  | [] => none
  | ENode.mk tg2 _ _ cs2 :: rest =>
    if tg2 == "Columns" then
      match strColumn1 cs2 with
      | some r => r
      | none => strColumns rest
    else strColumns rest

/-- Find the first `Column` node and take its `str`; outer `none` = not found. -/
def strColumn1 : List ENode → Option (Option String)
  | [] => none
  | n :: rest =>
    if n.tag == "Column" then some (strColumn n)
    else strColumn1 rest

end

/-- Text of the first child with the given tag (the value of a field of a
materialised node). -/
def getText (nd : ENode) (t : String) : Option String :=
  (findTag nd t).bind ENode.text

/-- Text of the column's own `Name` child (`self.name`). -/
def nameText (c : ENode) : Option String :=
  (findTag c "Name").bind ENode.text

/-- Text of the column's own `ID` child (`self.id`). -/
def idText (c : ENode) : Option String :=
  (findTag c "ID").bind ENode.text

/-- Python truthiness of the `usage` argument. -/
def usageTruthy : Option String → Bool
  | some u => u != ""
  | none => false

/-- The effect of `create_mining_node` on the parent: `ET.SubElement` appends
the new `Column` subtree as the last child of `parent`. -/
def materialize (parent c : ENode) (usage : Option String) : Option ENode :=
  (createMiningNode c usage).map
    (fun nd => ENode.mk parent.tag parent.attrs parent.text (parent.children ++ [nd]))

/-- Example template fragment: a scalar column named `Key1`. -/
def exChild : ENode :=
  ENode.mk "Column" [(xsiTypeKey, "ScalarMiningStructureColumn")] none
    [ENode.mk "Name" [] (some "Key1") [], ENode.mk "ID" [] (some "KID") []]

/-- Example template fragment: a nested (table) column whose own name `Tbl`
differs from its child column's name `Key1`. -/
def exTbl : ENode :=
  ENode.mk "Column" [(xsiTypeKey, "TableMiningStructureColumn")] none
    [ENode.mk "Name" [] (some "Tbl") [], ENode.mk "ID" [] (some "TblID") [],
     ENode.mk "Columns" [] none [exChild]]

/-- The node `create_mining_node` produces for `exTbl` with no usage. -/
def exNd : ENode :=
  ENode.mk "Column" [] none
    [ENode.mk "ID" [] (some "Tbl") [], ENode.mk "Name" [] (some "Tbl") [],
     ENode.mk "SourceColumnID" [] (some "TblID") [],
     ENode.mk "Columns" [] none
       [ENode.mk "Column" [] none
         [ENode.mk "ID" [] (some "Key1") [], ENode.mk "Name" [] (some "Key1") [],
          ENode.mk "SourceColumnID" [] (some "KID") [],
          ENode.mk "Usage" [] (some "Key") []]]]

/-! Supporting lemmas for canonicalisation (claims C1 and C9). -/

theorem isL_not_digit (c : Char) (h : isL c = true) : isDigitC c = false := by
  simp only [isL, Bool.or_eq_true, beq_iff_eq] at h
  rcases h with h | h <;> subst h <;> decide

theorem all_digit_false_of_last (l : List Char) (c : Char) (hl : l.getLast? = some c)
    (hc : isDigitC c = false) : l.all isDigitC = false := by
  induction l with
  | nil => simp at hl
  | cons x r ih =>
    cases r with
    | nil =>
      simp only [List.getLast?_singleton, Option.some.injEq] at hl
      subst hl
      simp [hc]
    | cons y r2 =>
      rw [List.getLast?_cons_cons] at hl
      simp [List.all_cons, ih hl]

theorem getLast_ne_nl_of_all_digit (l : List Char) (h : l.all isDigitC = true) :
    (l.getLast? == some '\n') = false := by
  refine beq_eq_false_iff_ne.mpr ?_
  intro he
  have hfalse := all_digit_false_of_last l '\n' he (by decide)
  rw [h] at hfalse
  cases hfalse

theorem coreOf_of_ne_nl (t : List Char) (h : (t.getLast? == some '\n') = false) :
    coreOf t = t := by
  unfold coreOf
  rw [h]
  rfl

theorem digitsDollar_of_ne_nl (t : List Char) (h : (t.getLast? == some '\n') = false) :
    digitsDollar t = (!t.isEmpty && t.all isDigitC) := by
  unfold digitsDollar
  rw [coreOf_of_ne_nl t h]

theorem goodSuffix_tl_last (sep : Char) (tl : List Char) (h : goodSuffixB sep tl = true) :
    (tl.getLast? == some '\n') = false := by
  cases tl with
  | nil => simp [goodSuffixB] at h
  | cons c ds =>
    simp only [goodSuffixB, Bool.and_eq_true, Bool.or_eq_true] at h
    obtain ⟨-, h⟩ := h
    rcases h with ⟨⟨hL, hne⟩, hall⟩ | ⟨⟨⟨hne, hall⟩, -⟩, -⟩
    · cases ds with
      | nil => simp at hne
      | cons e ds2 =>
        rw [List.getLast?_cons_cons]
        exact getLast_ne_nl_of_all_digit _ hall
    · exact getLast_ne_nl_of_all_digit _ hall

theorem goodSuffix_sep_tl_last (sep : Char) (tl : List Char) (h : goodSuffixB sep tl = true) :
    ((sep :: tl).getLast? == some '\n') = false := by
  cases tl with
  | nil => simp [goodSuffixB] at h
  | cons c ds =>
    rw [List.getLast?_cons_cons]
    exact goodSuffix_tl_last sep (c :: ds) h

theorem goodSuffix_not_allDigit (sep : Char) (tl : List Char)
    (h : goodSuffixB sep tl = true) : (sep :: tl).all isDigitC = false := by
  cases tl with
  | nil => simp [goodSuffixB] at h
  | cons c ds =>
    simp only [goodSuffixB, Bool.and_eq_true, Bool.or_eq_true] at h
    obtain ⟨-, h⟩ := h
    rcases h with ⟨⟨hL, -⟩, -⟩ | ⟨⟨⟨-, -⟩, hdig⟩, -⟩
    · simp [List.all_cons, isL_not_digit c hL]
    · simp only [Bool.not_eq_true'] at hdig
      simp [List.all_cons, hdig]

theorem suffixMatch_start (sep : Char) (tl : List Char) (h : goodSuffixB sep tl = true) :
    suffixMatch (sep :: tl) = true := by
  cases tl with
  | nil => simp [goodSuffixB] at h
  | cons c ds =>
    simp only [goodSuffixB, Bool.and_eq_true, Bool.or_eq_true] at h
    obtain ⟨hsep, h⟩ := h
    simp only [suffixMatch, hsep, Bool.true_and]
    rcases h with ⟨⟨hL, hne⟩, hall⟩ | ⟨⟨⟨hne, hall⟩, -⟩, -⟩
    · have hd : digitsDollar ds = true := by
        rw [digitsDollar_of_ne_nl ds (getLast_ne_nl_of_all_digit ds hall)]
        simp only [hall, Bool.and_true]
        cases ds with
        | nil => simp at hne
        | cons e ds2 => rfl
      simp [hL, hd]
    · have hd : digitsDollar (c :: ds) = true := by
        rw [digitsDollar_of_ne_nl (c :: ds) (getLast_ne_nl_of_all_digit _ hall)]
        simp [hall]
      simp [hd]

theorem suffixMatch_mid_false (sep : Char) (tl : List Char) (h : goodSuffixB sep tl = true)
    (x : Char) (r : List Char) : suffixMatch (x :: (r ++ sep :: tl)) = false := by
  have hall := goodSuffix_not_allDigit sep tl h
  have hst := goodSuffix_sep_tl_last sep tl h
  cases r with
  | nil =>
    cases tl with
    | nil => simp [goodSuffixB] at h
    | cons c ds =>
      have htl := goodSuffix_tl_last sep (c :: ds) h
      show suffixMatch (x :: sep :: c :: ds) = false
      simp only [suffixMatch]
      have h1 : digitsDollar (sep :: c :: ds) = false := by
        rw [digitsDollar_of_ne_nl _ hst]
        simp [hall]
      have h2 : (isL sep && digitsDollar (c :: ds)) = false := by
        simp only [goodSuffixB, Bool.and_eq_true, Bool.or_eq_true] at h
        obtain ⟨-, h⟩ := h
        rcases h with ⟨⟨hL, -⟩, -⟩ | ⟨⟨⟨-, -⟩, -⟩, hLs⟩
        · have hdd : digitsDollar (c :: ds) = false := by
            rw [digitsDollar_of_ne_nl _ htl]
            simp [List.all_cons, isL_not_digit c hL]
          simp [hdd]
        · simp only [Bool.not_eq_true'] at hLs
          simp [hLs]
      simp [h1, h2]
  | cons y r2 =>
    show suffixMatch (x :: y :: (r2 ++ sep :: tl)) = false
    simp only [suffixMatch]
    have hlast : ((r2 ++ sep :: tl).getLast? == some '\n') = false := by
      rw [List.getLast?_append_cons]
      exact hst
    have hdig : (r2 ++ sep :: tl).all isDigitC = false := by
      simp [List.all_append, hall]
    have h3 : digitsDollar (r2 ++ sep :: tl) = false := by
      rw [digitsDollar_of_ne_nl _ hlast]
      simp [hdig]
    have hlast2 : ((y :: (r2 ++ sep :: tl)).getLast? == some '\n') = false := by
      rw [show y :: (r2 ++ sep :: tl) = (y :: r2) ++ sep :: tl from rfl,
        List.getLast?_append_cons]
      exact hst
    have h4 : digitsDollar (y :: (r2 ++ sep :: tl)) = false := by
      rw [digitsDollar_of_ne_nl _ hlast2]
      simp [List.all_cons, hdig]
    simp [h3, h4]

theorem canonical_append (sep : Char) (tl : List Char) (h : goodSuffixB sep tl = true) :
    ∀ n : List Char, canonicalL (n ++ sep :: tl) = n := by
  intro n
  induction n with
  | nil =>
    show canonicalL (sep :: tl) = []
    simp [canonicalL, suffixMatch_start sep tl h, goodSuffix_sep_tl_last sep tl h]
  | cons x r ih =>
    show canonicalL (x :: (r ++ sep :: tl)) = x :: r
    simp [canonicalL, suffixMatch_mid_false sep tl h x r, ih]

theorem canonical_no_match (s : List Char) (h : hasMatch s = false) : canonicalL s = s := by
  induction s with
  | nil => rfl
  | cons c r ih =>
    simp only [hasMatch, Bool.or_eq_false_iff] at h
    simp [canonicalL, h.1, ih h.2]

/-- C1 (amended): the source's canonicalisation consumes one arbitrary
non-newline character before the optional `L` and the digits (CPython's `.`
never matches `'\n'`), so appending a suffix `sep :: tl` whose separator is
not a newline and which carries an explicit `L`/`l` marker — or whose
separator is neither a digit nor `L`/`l` — to a name that is already
canonical strips back to exactly that name:
`canonical(n + suffix) = canonical(n)`, and `n + suffix` matches `n` with
`strict=False`.  (Without these restrictions the claim fails, see `C1_cex`:
`'Figur2'` canonicalises to `'Figu'`, not `'Figur'`; and a newline separator
is not stripped at all.) -/
theorem C1_canonical_suffix (n : List Char) (sep : Char) (tl : List Char)
    (h1 : goodSuffixB sep tl = true) (h2 : canonicalL n = n) :
    canonicalL (n ++ sep :: tl) = canonicalL n ∧
    matchesL (n ++ sep :: tl) n false = true := by
  have hc := canonical_append sep tl h1 n
  refine ⟨by rw [hc, h2], ?_⟩
  unfold matchesL
  have hne : ¬ (n = n ++ sep :: tl) := by
    intro he
    have hlen := congrArg List.length he
    simp only [List.length_append, List.length_cons] at hlen
    omega
  rw [if_neg hne]
  simp [hc, h2]

/-- C1 witness: the amended statement at `n = 'Figur'`, suffix `'_L2'`. -/
theorem C1_witness :
    canonicalL ("Figur".toList ++ '_' :: "L2".toList) = canonicalL "Figur".toList ∧
    matchesL ("Figur".toList ++ '_' :: "L2".toList) "Figur".toList false = true :=
  C1_canonical_suffix "Figur".toList '_' "L2".toList (by decide) (by decide)

/-- C1 counterexample: contrary to the claim, `'Figur2'` does not canonicalise
to `'Figur'` — the wildcard `.` of `.[Ll]?[0-9]+$` consumes the `r`, giving
`'Figu'` — so `'Figur2'` does not match the reference `'Figur'` with
`strict=False`. -/
theorem C1_cex :
    matchesL "Figur2".toList "Figur".toList false = false ∧
    canonicalL "Figur2".toList = "Figu".toList :=
  ⟨by decide, by decide⟩

/-- C9 (amended): `re.sub` on the end-anchored pattern removes at most one
suffix occurrence, so canonicalisation is a fixed point exactly on names whose
canonical form contains no further match of `.[Ll]?[0-9]+$`; under that
condition `canonical(canonical(n)) = canonical(n)`.  (Unconditional idempotence
fails, see `C9_cex`.) -/
theorem C9_canonical_conditional_fixed (n : List Char)
    (h : hasMatch (canonicalL n) = false) :
    canonicalL (canonicalL n) = canonicalL n :=
  canonical_no_match (canonicalL n) h

/-- C9 witness: the conditional idempotence at `'Figur_L2'`. -/
theorem C9_witness :
    canonicalL (canonicalL "Figur_L2".toList) = canonicalL "Figur_L2".toList :=
  C9_canonical_conditional_fixed "Figur_L2".toList (by decide)

/-- C9 counterexample: canonicalisation is not idempotent —
`canonical('Figur_L1_L2') = 'Figur_L1'` but `canonical('Figur_L1') = 'Figur'`. -/
theorem C9_cex :
    canonicalL (canonicalL "Figur_L1_L2".toList) ≠ canonicalL "Figur_L1_L2".toList := by
  decide

/-- C10: non-strict matching is symmetric — stripping both names with the same
rule and comparing for equality does not depend on the argument order, and the
exact-equality fast path is itself symmetric. -/
theorem C10_matches_symm (a b : List Char) : matchesL a b false = matchesL b a false := by
  unfold matchesL
  by_cases hab : b = a
  · subst hab; simp
  · have hba : ¬ (a = b) := fun he => hab he.symm
    rw [if_neg hab, if_neg hba]
    show (canonicalL b == canonicalL a) = (canonicalL a == canonicalL b)
    by_cases hc : canonicalL b = canonicalL a
    · rw [hc]
    · have hc2 : ¬ (canonicalL a = canonicalL b) := fun he => hc he.symm
      rw [beq_false_of_ne hc, beq_false_of_ne hc2]

/-! Supporting lemmas for level extraction (claim C2). -/

theorem all_digit_noNl (l : List Char) (h : l.all isDigitC = true) : noNl l = true := by
  induction l with
  | nil => rfl
  | cons x r ih =>
    simp only [List.all_cons, Bool.and_eq_true] at h
    have hx : (x != '\n') = true := by
      have hne : ¬ (x = '\n') := by
        intro he
        subst he
        exact absurd h.1 (by decide)
      simpa using hne
    have ihr := ih h.2
    simp only [noNl, List.all_cons] at ihr ⊢
    simp [hx, ihr]

theorem not_all_digit_of_not_noNl (l : List Char) (h : noNl l = false) :
    l.all isDigitC = false := by
  cases hall : l.all isDigitC
  · rfl
  · rw [all_digit_noNl l hall] at h
    cases h

theorem coreOf_cons (c : Char) (r : List Char) (hr : r ≠ []) :
    coreOf (c :: r) = c :: coreOf r := by
  cases r with
  | nil => exact absurd rfl hr
  | cons y r2 =>
    unfold coreOf
    rw [List.getLast?_cons_cons]
    by_cases hnl : ((y :: r2).getLast? == some '\n') = true
    · rw [if_pos hnl, if_pos hnl]
      rfl
    · rw [if_neg hnl, if_neg hnl]

theorem coreOf_eq_nil (r : List Char) (hr : r ≠ []) (h : coreOf r = []) : r = ['\n'] := by
  cases r with
  | nil => exact absurd rfl hr
  | cons y r2 =>
    cases r2 with
    | nil =>
      by_cases hy : y = '\n'
      · subst hy
        rfl
      · exfalso
        have hco : coreOf [y] = [y] := by
          unfold coreOf
          simp [List.getLast?_singleton, hy]
        rw [hco] at h
        cases h
    | cons z r3 =>
      exfalso
      rw [coreOf_cons y (z :: r3) (by simp)] at h
      cases h

theorem levelGroupAt_none (c : Char) (r : List Char) (hr : r ≠ [])
    (hbad : (coreOf r).all isDigitC = false) :
    levelGroupAt (c :: r) = none := by
  have h1 : digitsDollar r = false := by
    unfold digitsDollar
    rw [hbad]
    simp
  have h2 : digitsDollar (c :: r) = false := by
    unfold digitsDollar
    rw [coreOf_cons c r hr]
    simp [List.all_cons, hbad]
  simp [levelGroupAt, digitsGroup, h1, h2]

theorem findGroup_eq (s : List Char) :
    findGroup s =
      (if noNl (coreOf s) then
        match (coreOf s).getLast? with
        | some d => if isDigitC d then some [d] else none
        | none => none
      else none) := by
  induction s with
  | nil => rfl
  | cons c r ih =>
    by_cases hc : (c == '\n') = true
    · have hc2 : c = '\n' := by simpa using hc
      subst hc2
      cases r with
      | nil => rfl
      | cons y r2 =>
        have hcc : coreOf ('\n' :: y :: r2) = '\n' :: coreOf (y :: r2) :=
          coreOf_cons '\n' (y :: r2) (by simp)
        have hfg : findGroup ('\n' :: y :: r2) = levelGroupAt ('\n' :: y :: r2) := by
          simp [findGroup]
        have h1 : digitsDollar ('\n' :: y :: r2) = false := by
          unfold digitsDollar
          rw [hcc]
          have hnd : isDigitC '\n' = false := by decide
          simp [List.all_cons, hnd]
        have h2 : noNl (coreOf ('\n' :: y :: r2)) = false := by
          rw [hcc]
          simp [noNl, List.all_cons]
        have hisL : isL '\n' = false := by decide
        rw [hfg, h2]
        simp only [levelGroupAt]
        rw [if_neg (by simp [hisL])]
        unfold digitsGroup
        rw [h1]
        rw [if_neg (by simp)]
        rw [if_neg (by simp)]
    · have hcne : ¬ (c = '\n') := by simpa using hc
      have hcb : (c != '\n') = true := by simpa using hcne
      have hfg : findGroup (c :: r) =
          (match findGroup r with
           | some g => some g
           | none => levelGroupAt (c :: r)) := by
        simp [findGroup, hc]
      rw [hfg]
      cases r with
      | nil =>
        have hcc : coreOf [c] = [c] := by
          unfold coreOf
          simp [List.getLast?_singleton, hcne]
        rw [show findGroup ([] : List Char) = none from rfl, hcc]
        have hnn : noNl [c] = true := by
          simp [noNl, List.all_cons, hcb]
        rw [if_pos hnn, List.getLast?_singleton]
        show levelGroupAt [c] = if isDigitC c = true then some [c] else none
        simp only [levelGroupAt]
        by_cases hL : isL c = true
        · rw [if_pos hL]
          have hnd := isL_not_digit c hL
          rw [if_neg (by simp [hnd])]
          rfl
        · rw [if_neg hL]
          unfold digitsGroup
          have hdd : digitsDollar [c] = isDigitC c := by
            unfold digitsDollar
            rw [hcc]
            simp [List.all_cons]
          rw [hdd, hcc]
      | cons y r2 =>
        have hcc : coreOf (c :: y :: r2) = c :: coreOf (y :: r2) :=
          coreOf_cons c (y :: r2) (by simp)
        rw [ih, hcc]
        by_cases hnl : noNl (coreOf (y :: r2)) = true
        · rw [if_pos hnl]
          have hnlc : noNl (c :: coreOf (y :: r2)) = true := by
            simp only [noNl, List.all_cons] at hnl ⊢
            simp [hcb, hnl]
          rw [if_pos hnlc]
          cases hgl : (coreOf (y :: r2)).getLast? with
          | none =>
            have hgl2 := hgl
            rw [List.getLast?_eq_none_iff] at hgl2
            have hr2 : (y :: r2) = ['\n'] := coreOf_eq_nil (y :: r2) (by simp) hgl2
            rw [hgl2, hr2]
            rw [List.getLast?_singleton]
            show levelGroupAt [c, '\n'] = if isDigitC c = true then some [c] else none
            simp only [levelGroupAt]
            by_cases hL : isL c = true
            · rw [if_pos hL]
              have hnd := isL_not_digit c hL
              rw [if_neg (by simp [hnd])]
              rfl
            · rw [if_neg hL]
              have hgl3 : ([c, '\n'] : List Char).getLast? = some '\n' := by
                rw [List.getLast?_cons_cons, List.getLast?_singleton]
              have hcore : coreOf [c, '\n'] = [c] := by
                unfold coreOf
                rw [hgl3]
                rw [if_pos (by simp)]
                rfl
              unfold digitsGroup
              have hdd : digitsDollar [c, '\n'] = isDigitC c := by
                unfold digitsDollar
                rw [hcore]
                simp [List.all_cons]
              rw [hdd, hcore]
          | some d =>
            have hcne2 : coreOf (y :: r2) ≠ [] := by
              intro he
              rw [he] at hgl
              cases hgl
            have hglc : (c :: coreOf (y :: r2)).getLast? = (coreOf (y :: r2)).getLast? := by
              cases hco : coreOf (y :: r2) with
              | nil => exact absurd hco hcne2
              | cons e rest => rw [List.getLast?_cons_cons]
            rw [hglc, hgl]
            show (match (if isDigitC d = true then some [d] else none) with
                  | some g => some g
                  | none => levelGroupAt (c :: y :: r2)) =
                 (if isDigitC d = true then some [d] else none)
            by_cases hd : isDigitC d = true
            · rw [if_pos hd]
            · rw [if_neg hd]
              have hdf : isDigitC d = false := by simpa using hd
              have hbad : (coreOf (y :: r2)).all isDigitC = false :=
                all_digit_false_of_last _ d hgl hdf
              show levelGroupAt (c :: y :: r2) = none
              exact levelGroupAt_none c (y :: r2) (by simp) hbad
        · rw [if_neg hnl]
          have hnlf : noNl (coreOf (y :: r2)) = false := by
            cases hq : noNl (coreOf (y :: r2))
            · rfl
            · exact absurd hq hnl
          have hnlc : noNl (c :: coreOf (y :: r2)) = false := by
            simp only [noNl, List.all_cons] at hnlf ⊢
            simp [hnlf]
          rw [if_neg (by simp [hnlc])]
          have hbad : (coreOf (y :: r2)).all isDigitC = false :=
            not_all_digit_of_not_noNl _ hnlf
          show levelGroupAt (c :: y :: r2) = none
          exact levelGroupAt_none c (y :: r2) (by simp) hbad

/-- C2 (amended): the level of a name equals the numeric value of the name's
final character after discarding a single trailing newline (which the regex
end anchor `$` steps over), provided the remainder contains no newline (the
greedy `.*` cannot cross one) and that final character is a digit; otherwise
the level is `0`.  In particular, for newline-free names the level is the
last character's digit value or `0`: the greedy `.*` of `.*[Ll]?([0-9]+)$`
leaves only one character to the capture group, so a name ending in `_L12`
has level `2`, not `12`, while absence of a trailing digit yields `0`, as the
claim states. -/
theorem C2_level_last_digit (s : List Char) :
    level s =
      (if noNl (coreOf s) then
        ((coreOf s).getLast?.map (fun c => if isDigitC c then digitVal c else 0)).getD 0
      else 0) := by
  unfold level
  rw [findGroup_eq]
  by_cases hnl : noNl (coreOf s) = true
  · rw [if_pos hnl, if_pos hnl]
    cases h : (coreOf s).getLast? with
    | none => rfl
    | some c =>
      by_cases hd : isDigitC c = true
      · simp [hd, Nat.zero_max]
      · have hdf : isDigitC c = false := by simpa using hd
        simp [hdf]
  · rw [if_neg hnl, if_neg hnl]

/-- C2 counterexample: the name `'Figur_L12'` has level `2` in the code, not
the `12` the claim requires for the trailing digit group `12`. -/
theorem C2_cex : level "Figur_L12".toList = 2 ∧ level "Figur_L12".toList ≠ 12 :=
  ⟨by decide, by decide⟩

/-- C4: root derivation really is character-set stripping.  On the template
base name `'ms_goldmarie_vorlage.dmm'` the source's
`rstrip('_vorlage.dmm').strip('ms_')` over-trims the trailing `e` of
`goldmarie` (every character of `'goldmarie'`'s tail `e` lies in the strip
set), yielding `'goldmari'`, whereas the literal-token stripping the claim
(and the specification) prescribe yields `'goldmarie'`. -/
theorem C4_root_charclass_bug :
    loadRoot "ms_goldmarie_vorlage.dmm".toList = "goldmari".toList ∧
    rootSpec "ms_goldmarie_vorlage.dmm".toList = "goldmarie".toList ∧
    loadRoot "ms_goldmarie_vorlage.dmm".toList ≠ rootSpec "ms_goldmarie_vorlage.dmm".toList :=
  ⟨by decide, by decide, by decide⟩

/-- C3 (amended): an explicit name is returned verbatim when it is non-empty
and at most 100 characters long.  (An empty explicit name is falsy and is
replaced by the composed name, and an explicit name longer than 100 characters
falls into the hash-based branch, see `C3_cex`.) -/
theorem C3_explicit_name (root : List Char) (inputs : List (List Char))
    (output : Option (List Char)) (sha : List Char → List Char) (e : List Char)
    (h1 : e ≠ []) (h2 : e.length ≤ 100) :
    docName root inputs output (some e) sha = some e := by
  cases e with
  | nil => exact absurd rfl h1
  | cons a r =>
    have hlen : ¬ (100 < (a :: r).length) := by omega
    have key : docName root inputs output (some (a :: r)) sha =
        if 100 < (a :: r).length then
          (match output with
           | some o => some ((root ++ ['_', '_'] ++ sha (part_name inputs output) ++ ['_', '_'] ++
               shortnameL o).take 100)
           | none => none)
        else some (a :: r) := rfl
    rw [key, if_neg hlen]

/-- C3 witness: a short explicit name is returned verbatim. -/
theorem C3_witness :
    docName ['r'] [] (some ['o']) (some ['m', 'y']) (fun _ => []) = some ['m', 'y'] :=
  C3_explicit_name ['r'] [] (some ['o']) (fun _ => []) ['m', 'y'] (by decide) (by decide)

/-- C3 counterexample: an explicit name of 101 characters is not returned
verbatim — the length check applies to it and substitutes the hash-based,
truncated form. -/
theorem C3_cex :
    docName ['r'] [] (some ['o']) (some (List.replicate 101 'a'))
        (fun _ => List.replicate 64 'f') ≠ some (List.replicate 101 'a') := by
  decide

/-- C6: with no explicit name and an output column set, whenever the composed
name `root + '__' + partName` exceeds 100 characters the synthesized name is
the hash-based form `root + '__' + digest + '__' + output shortname` truncated
to 100 characters, and every name the synthesizer returns in this situation
has length at most 100 — it truncates rather than erring, for any digest
function. -/
theorem C6_hash_truncation (root : List Char) (inputs : List (List Char)) (o : List Char)
    (sha : List Char → List Char)
    (h : 100 < (root ++ ['_', '_'] ++ part_name inputs (some o)).length) :
    docName root inputs (some o) none sha =
      some ((root ++ ['_', '_'] ++ sha (part_name inputs (some o)) ++ ['_', '_'] ++
        shortnameL o).take 100) ∧
    ∀ r, docName root inputs (some o) none sha = some r → r.length ≤ 100 := by
  have key : docName root inputs (some o) none sha =
      if 100 < (root ++ ['_', '_'] ++ part_name inputs (some o)).length then
        some ((root ++ ['_', '_'] ++ sha (part_name inputs (some o)) ++ ['_', '_'] ++
          shortnameL o).take 100)
      else some (root ++ ['_', '_'] ++ part_name inputs (some o)) := rfl
  have h1 := key.trans (if_pos h)
  refine ⟨h1, ?_⟩
  intro r hr
  rw [h1] at hr
  injection hr with hr
  rw [← hr, List.length_take]
  exact Nat.min_le_left _ _

/-- C6 witness: a 101-character root forces the hash branch and a truncated
result. -/
theorem C6_witness :
    docName (List.replicate 101 'a') [] (some ['c']) none (fun _ => ['h']) =
      some ((List.replicate 101 'a' ++ ['_', '_'] ++ ['h'] ++ ['_', '_'] ++ ['c']).take 100) :=
  (C6_hash_truncation (List.replicate 101 'a') [] ['c'] (fun _ => ['h']) (by decide)).1

/-- C7: `remove_unused` never removes a declared top-level column that
matches (non-strict) some entry of the ignore list or of `used_columns`, and
conversely a removed column matches no name of that union. -/
theorem C7_prune_protects (d : DocState) (ignore : List (List Char)) (c : List Char)
    (hc : c ∈ d.miningCols) :
    ((∃ n, (n ∈ ignore ∨ n ∈ used_columns d) ∧ matchesL c n false = true) →
        c ∈ remove_unused d ignore) ∧
    (c ∉ remove_unused d ignore →
        ∀ n, (n ∈ ignore ∨ n ∈ used_columns d) → matchesL c n false = false) := by
  constructor
  · rintro ⟨n, hn, hm⟩
    unfold remove_unused
    rw [List.mem_filter]
    refine ⟨hc, ?_⟩
    rw [List.any_eq_true]
    refine ⟨n, ?_, hm⟩
    rw [List.mem_append]
    tauto
  · intro hnot n hn
    by_contra hm
    rw [Bool.not_eq_false] at hm
    apply hnot
    unfold remove_unused
    rw [List.mem_filter]
    refine ⟨hc, ?_⟩
    rw [List.any_eq_true]
    refine ⟨n, ?_, hm⟩
    rw [List.mem_append]
    tauto

/-- Example document state for the C7 witness: two declared columns, output
column `Genre`, nothing else used. -/
def exDoc : DocState :=
  ⟨["Genre".toList, "Figur_L1".toList], [], [], "Genre".toList⟩

/-- C7 witness: the output column `Genre` survives pruning. -/
theorem C7_witness : "Genre".toList ∈ remove_unused exDoc [] :=
  (C7_prune_protects exDoc [] "Genre".toList (by decide)).1
    ⟨"Genre".toList, Or.inr (by decide), by decide⟩

/-! Supporting lemmas for maximum-level selection (claim C8). -/

theorem pyMaxGo_mem (key : List Char → Nat) (a : List Char) (l : List (List Char)) :
    pyMaxGo key a l = a ∨ pyMaxGo key a l ∈ l := by
  induction l generalizing a with
  | nil => exact Or.inl rfl
  | cons b r ih =>
    simp only [pyMaxGo]
    by_cases hc : key a < key b
    · rw [if_pos hc]
      rcases ih b with h | h
      · refine Or.inr ?_
        rw [h]
        exact List.mem_cons_self b r
      · exact Or.inr (List.mem_cons_of_mem b h)
    · rw [if_neg hc]
      rcases ih a with h | h
      · exact Or.inl h
      · exact Or.inr (List.mem_cons_of_mem b h)

theorem pyMaxGo_ge (key : List Char → Nat) (a : List Char) (l : List (List Char)) :
    key a ≤ key (pyMaxGo key a l) ∧ ∀ x ∈ l, key x ≤ key (pyMaxGo key a l) := by
  induction l generalizing a with
  | nil => exact ⟨Nat.le_refl _, by simp⟩
  | cons b r ih =>
    simp only [pyMaxGo]
    by_cases hc : key a < key b
    · rw [if_pos hc]
      obtain ⟨h1, h2⟩ := ih b
      refine ⟨Nat.le_trans (Nat.le_of_lt hc) h1, ?_⟩
      intro x hx
      rcases List.mem_cons.mp hx with hxe | hx
      · rw [hxe]; exact h1
      · exact h2 x hx
    · rw [if_neg hc]
      obtain ⟨h1, h2⟩ := ih a
      refine ⟨h1, ?_⟩
      intro x hx
      rcases List.mem_cons.mp hx with hxe | hx
      · rw [hxe]; exact Nat.le_trans (Nat.le_of_not_lt hc) h1
      · exact h2 x hx

/-- C8: when resolution of a reference succeeds, the column picked by
`max(get_columns_by_name(ref), key=level)` is one of the matching columns and
carries the maximum level among them; being a pure function of the column
list and the reference, the pick is the same on every run. -/
theorem C8_max_level (cols : List (List Char)) (ref c : List Char)
    (h : select_column cols ref = some c) :
    c ∈ get_columns_by_name cols ref ∧
    ∀ x ∈ get_columns_by_name cols ref, level x ≤ level c := by
  unfold select_column at h
  cases hm : get_columns_by_name cols ref with
  | nil =>
    rw [hm] at h
    exact absurd h (by simp [pyMax?])
  | cons a r =>
    rw [hm] at h
    simp only [pyMax?, Option.some.injEq] at h
    subst h
    constructor
    · rcases pyMaxGo_mem level a r with h1 | h1
      · rw [h1]
        exact List.mem_cons_self a r
      · exact List.mem_cons_of_mem a h1
    · intro x hx
      rcases List.mem_cons.mp hx with hxe | hx
      · rw [hxe]
        exact (pyMaxGo_ge level a r).1
      · exact (pyMaxGo_ge level a r).2 x hx

/-- Declared leveled columns for the C8 witness. -/
def exCols : List (List Char) :=
  ["Figur_L1".toList, "Figur_L2".toList, "Figur_L3".toList]

/-- C8 witness: among `Figur_L1`, `Figur_L2`, `Figur_L3`, all matching the
reference `Figur`, the resolution picks `Figur_L3`. -/
theorem C8_witness :
    select_column exCols "Figur".toList = some "Figur_L3".toList ∧
    "Figur_L3".toList ∈ get_columns_by_name exCols "Figur".toList := by
  have h : select_column exCols "Figur".toList = some "Figur_L3".toList := by decide
  exact ⟨h, (C8_max_level exCols "Figur".toList "Figur_L3".toList h).1⟩

/-! Supporting lemmas for column materialisation (claim C5). -/

theorem ENode.tag_mk (t : String) (a : List (String × String)) (tx : Option String)
    (cs : List ENode) : (ENode.mk t a tx cs).tag = t := rfl

theorem ENode.children_mk (t : String) (a : List (String × String)) (tx : Option String)
    (cs : List ENode) : (ENode.mk t a tx cs).children = cs := rfl

theorem findTagL_cons_hit (tg : String) (a2 : List (String × String)) (tx2 : Option String)
    (cs2 rest : List ENode) (t : String) (h : (tg == t) = true) :
    findTagL (ENode.mk tg a2 tx2 cs2 :: rest) t = some (ENode.mk tg a2 tx2 cs2) := by
  simp [findTagL, List.find?, ENode.tag, h]

theorem findTagL_cons_miss (tg : String) (a2 : List (String × String)) (tx2 : Option String)
    (cs2 rest : List ENode) (t : String) (h : (tg == t) = false) :
    findTagL (ENode.mk tg a2 tx2 cs2 :: rest) t = findTagL rest t := by
  simp [findTagL, List.find?, ENode.tag, h]

theorem findTagL_append_left_none (cs1 cs2 : List ENode) (t : String)
    (h : findTagL cs1 t = none) :
    findTagL (cs1 ++ cs2) t = findTagL cs2 t := by
  simp only [findTagL] at h ⊢
  rw [List.find?_append, h]
  rfl

theorem findTagL_usageList_none (usage : Option String) (t : String)
    (h : ("Usage" == t) = false) : findTagL (usageList usage) t = none := by
  rcases usage with _ | u
  · rfl
  · simp only [usageList]
    by_cases hu : (u == "") = true
    · rw [if_pos hu]
      rfl
    · rw [if_neg hu]
      simp [findTagL, List.find?, ENode.tag, h]

theorem cmnColumn_eq (cs2 : List ENode) :
    cmnColumn cs2 = (cs2.find? (fun n => n.tag == "Column")).map
      (fun ch => createMiningNode ch (some "Key")) := by
  induction cs2 with
  | nil => rfl
  | cons n rest ih =>
    by_cases h : (n.tag == "Column") = true
    · simp [cmnColumn, List.find?, h]
    · have h2 : (n.tag == "Column") = false := by simpa using h
      simp [cmnColumn, List.find?, h2, ih]

theorem cmnColumns_eq (cs : List ENode) :
    cmnColumns cs = (match findPath2 cs with
      | some ch => createMiningNode ch (some "Key")
      | none => none) := by
  induction cs with
  | nil => rfl
  | cons n rest ih =>
    obtain ⟨tg2, a2, tx2, cs2⟩ := n
    simp only [cmnColumns, findPath2, findTagL, ENode.children_mk, ENode.tag_mk]
    by_cases h : (tg2 == "Columns") = true
    · rw [if_pos h, if_pos h, cmnColumn_eq cs2]
      cases hf : List.find? (fun n => n.tag == "Column") cs2 with
      | some m => rfl
      | none => exact ih
    · rw [if_neg h, if_neg h]
      exact ih

theorem usageList_truthy (usage : Option String) (h : usageTruthy usage = true) :
    usageList usage = [ENode.mk "Usage" [] usage []] := by
  rcases usage with _ | u
  · simp [usageTruthy] at h
  · have h2 : ¬ (u = "") := by simpa [usageTruthy] using h
    simp [usageList, h2]

theorem usageList_falsy (usage : Option String) (h : usageTruthy usage = false) :
    usageList usage = [] := by
  rcases usage with _ | u
  · rfl
  · have h2 : u = "" := by simpa [usageTruthy] using h
    simp [usageList, h2]

theorem createMiningNode_eq (tg : String) (a : List (String × String)) (tx : Option String)
    (cs : List ENode) (usage : Option String) (nameN idN : ENode) (ty : String)
    (hN : findTagL cs "Name" = some nameN) (hI : findTagL cs "ID" = some idN)
    (hT : lookupA a xsiTypeKey = some ty) :
    createMiningNode (ENode.mk tg a tx cs) usage =
      if ty == "TableMiningStructureColumn" then
        match cmnColumns cs with
        | some chNd =>
          some (ENode.mk "Column" [] none
            ((ENode.mk "ID" [] nameN.text [] :: ENode.mk "Name" [] nameN.text [] ::
              ENode.mk "SourceColumnID" [] idN.text [] :: usageList usage) ++
             [ENode.mk "Columns" [] none [chNd]]))
        | none => none
      else some (ENode.mk "Column" [] none
        (ENode.mk "ID" [] nameN.text [] :: ENode.mk "Name" [] nameN.text [] ::
         ENode.mk "SourceColumnID" [] idN.text [] :: usageList usage)) := by
  simp only [createMiningNode]
  rw [hN, hI, hT]

/-- C5 (amended): materialisation appends exactly one new child to the parent;
its identifier and name fields are both set to the text of the column node's
own `Name` field (`self.name` — for a nested column this is the table column's
own name, not the child-delegating display name, see `C5_cex`), its
source-reference field to the text of the column's own `ID` field, a usage
field is present iff the role argument is truthy, and for a nested column a
`Columns` container child holds the child column materialised with role
`Key`. -/
theorem C5_materialize (c parent : ENode) (usage : Option String) (nd : ENode)
    (h : createMiningNode c usage = some nd) :
    materialize parent c usage =
      some (ENode.mk parent.tag parent.attrs parent.text (parent.children ++ [nd])) ∧
    getText nd "ID" = nameText c ∧
    getText nd "Name" = nameText c ∧
    getText nd "SourceColumnID" = idText c ∧
    (usageTruthy usage = true → getText nd "Usage" = usage) ∧
    (usageTruthy usage = false → findTag nd "Usage" = none) ∧
    (isNestedT c = true → ∃ ch chNd, childCol c = some ch ∧
       createMiningNode ch (some "Key") = some chNd ∧
       findTag nd "Columns" = some (ENode.mk "Columns" [] none [chNd])) := by
  refine ⟨by simp [materialize, h], ?_⟩
  obtain ⟨tg, a, tx, cs⟩ := c
  cases hN : findTagL cs "Name" with
  | none =>
    simp only [createMiningNode] at h
    rw [hN] at h
    exact Option.noConfusion h
  | some nameN =>
  cases hI : findTagL cs "ID" with
  | none =>
    simp only [createMiningNode] at h
    rw [hN, hI] at h
    exact Option.noConfusion h
  | some idN =>
  cases hT : lookupA a xsiTypeKey with
  | none =>
    simp only [createMiningNode] at h
    rw [hN, hI, hT] at h
    exact Option.noConfusion h
  | some ty =>
  rw [createMiningNode_eq tg a tx cs usage nameN idN ty hN hI hT] at h
  have hnm : nameText (ENode.mk tg a tx cs) = nameN.text := by
    simp [nameText, findTag, ENode.children, hN]
  have hidt : idText (ENode.mk tg a tx cs) = idN.text := by
    simp [idText, findTag, ENode.children, hI]
  by_cases hty : (ty == "TableMiningStructureColumn") = true
  · rw [if_pos hty] at h
    cases hC : cmnColumns cs with
    | none =>
      rw [hC] at h
      exact Option.noConfusion h
    | some chNd =>
      rw [hC] at h
      injection h with h
      subst h
      refine ⟨?_, ?_, ?_, ?_, ?_, ?_⟩
      · rw [hnm]
        simp only [getText, findTag, ENode.children, List.cons_append]
        rw [findTagL_cons_hit _ _ _ _ _ _ (by decide)]
        rfl
      · rw [hnm]
        simp only [getText, findTag, ENode.children, List.cons_append]
        rw [findTagL_cons_miss _ _ _ _ _ _ (by decide),
          findTagL_cons_hit _ _ _ _ _ _ (by decide)]
        rfl
      · rw [hidt]
        simp only [getText, findTag, ENode.children, List.cons_append]
        rw [findTagL_cons_miss _ _ _ _ _ _ (by decide),
          findTagL_cons_miss _ _ _ _ _ _ (by decide),
          findTagL_cons_hit _ _ _ _ _ _ (by decide)]
        rfl
      · intro hu
        rw [usageList_truthy usage hu]
        simp only [getText, findTag, ENode.children, List.cons_append]
        rw [findTagL_cons_miss _ _ _ _ _ _ (by decide),
          findTagL_cons_miss _ _ _ _ _ _ (by decide),
          findTagL_cons_miss _ _ _ _ _ _ (by decide),
          findTagL_cons_hit _ _ _ _ _ _ (by decide)]
        rfl
      · intro hu
        rw [usageList_falsy usage hu]
        simp only [findTag, ENode.children, List.cons_append, List.nil_append]
        rw [findTagL_cons_miss _ _ _ _ _ _ (by decide),
          findTagL_cons_miss _ _ _ _ _ _ (by decide),
          findTagL_cons_miss _ _ _ _ _ _ (by decide),
          findTagL_cons_miss _ _ _ _ _ _ (by decide)]
        rfl
      · intro _
        rw [cmnColumns_eq] at hC
        cases hP : findPath2 cs with
        | none =>
          rw [hP] at hC
          exact Option.noConfusion hC
        | some ch =>
          rw [hP] at hC
          refine ⟨ch, chNd, ?_, hC, ?_⟩
          · simp [childCol, ENode.children, hP]
          · simp only [findTag, ENode.children, List.cons_append]
            rw [findTagL_cons_miss _ _ _ _ _ _ (by decide),
              findTagL_cons_miss _ _ _ _ _ _ (by decide),
              findTagL_cons_miss _ _ _ _ _ _ (by decide),
              findTagL_append_left_none _ _ _
                (findTagL_usageList_none usage "Columns" (by decide)),
              findTagL_cons_hit _ _ _ _ _ _ (by decide)]
  · rw [if_neg hty] at h
    injection h with h
    subst h
    refine ⟨?_, ?_, ?_, ?_, ?_, ?_⟩
    · rw [hnm]
      simp only [getText, findTag, ENode.children]
      rw [findTagL_cons_hit _ _ _ _ _ _ (by decide)]
      rfl
    · rw [hnm]
      simp only [getText, findTag, ENode.children]
      rw [findTagL_cons_miss _ _ _ _ _ _ (by decide),
        findTagL_cons_hit _ _ _ _ _ _ (by decide)]
      rfl
    · rw [hidt]
      simp only [getText, findTag, ENode.children]
      rw [findTagL_cons_miss _ _ _ _ _ _ (by decide),
        findTagL_cons_miss _ _ _ _ _ _ (by decide),
        findTagL_cons_hit _ _ _ _ _ _ (by decide)]
      rfl
    · intro hu
      rw [usageList_truthy usage hu]
      simp only [getText, findTag, ENode.children]
      rw [findTagL_cons_miss _ _ _ _ _ _ (by decide),
        findTagL_cons_miss _ _ _ _ _ _ (by decide),
        findTagL_cons_miss _ _ _ _ _ _ (by decide),
        findTagL_cons_hit _ _ _ _ _ _ (by decide)]
      rfl
    · intro hu
      rw [usageList_falsy usage hu]
      simp only [findTag, ENode.children]
      rw [findTagL_cons_miss _ _ _ _ _ _ (by decide),
        findTagL_cons_miss _ _ _ _ _ _ (by decide),
        findTagL_cons_miss _ _ _ _ _ _ (by decide)]
      rfl
    · intro habs
      rw [isNestedT] at habs
      simp only [lookupAttr, ENode.attrs, hT] at habs
      have hty2 : ty = "TableMiningStructureColumn" := by simpa using habs
      exact absurd (by simp [hty2]) hty

/-- C5 witness: the amended field equations at the concrete nested column
`exTbl` with no usage argument. -/
theorem C5_witness :
    getText exNd "ID" = nameText exTbl ∧ getText exNd "Name" = nameText exTbl ∧
    getText exNd "SourceColumnID" = idText exTbl := by
  have h : createMiningNode exTbl none = some exNd := rfl
  have H := C5_materialize exTbl exTbl none exNd h
  exact ⟨H.2.1, H.2.2.1, H.2.2.2.1⟩

/-- C5 counterexample: for the nested column `exTbl` (own name `Tbl`, child
name `Key1`, display name therefore `Key1`), the materialised node's name
field is `Tbl` — the column's own name — and not the display name `Key1` the
claim requires. -/
theorem C5_cex :
    (createMiningNode exTbl none).bind (fun nd => getText nd "Name") = some "Tbl" ∧
    strColumn exTbl = some "Key1" ∧ ("Tbl" : String) ≠ "Key1" :=
  ⟨rfl, rfl, by decide⟩
